import Mathlib

/-!
# Spark: a verification development

A shallow embedding of the glue code in `spark.go` and `settings.go`:
configuration defaults, folder bootstrapping, database initialisation,
request building, middleware wrappers and the JWT middleware.

Calls into third-party libraries (gin, gorm, golang-jwt, the Go standard
library) are either parameters of the embedded functions or recorded as
events, so that every theorem holds for any behaviour of those libraries.
-/

namespace Spark

/-! ## settings.go -/

/-- The `Settings` struct of `settings.go`. -/
structure Settings where
  templates : String
  layouts : String
  views : String
  static : String
  static_url : String
  uploads : String
  debug : Bool
  need_template : Bool
  use_layouts : Bool
  address : String
  db_driver : String
  database : String
deriving DecidableEq, Repr

/-- The package variable `APP_SETTINGS` with its shipped initial value. -/
def APP_SETTINGS : Settings where
  templates := "./templates/"
  layouts := "./templates/layouts/"
  views := "./templates/views/"
  static := "./static/"
  static_url := "/static"
  uploads := "/uploads/"
  debug := true
  need_template := true
  use_layouts := true
  address := ":8000"
  db_driver := "sqlite"
  database := "app.db"

/-! ## Run -/

/-- The function `Run` of `spark.go`: the value is the address handed to `Router.Run`. -/
def Run (settings : Settings) : String :=
  let addr := settings.address
  let addr := if addr = "" then ":8000" else addr
  addr

/-! ## InitDB -/

/-- The three gorm dialects imported by `spark.go`. -/
inductive Dialect
  | sqlite
  | mysql
  | postgres
deriving DecidableEq, Repr

/-- The name under which each dialect is selected in the `switch` of `InitDB`. -/
def Dialect.name : Dialect → String
  | .sqlite => "sqlite"
  | .mysql => "mysql"
  | .postgres => "postgres"

/-- What one run of `InitDB` did: the `gorm.Open` calls it made (dialect and
data source name), the value left in the package variable `DB`, and the message
of the `log.Fatal` call that ended the process, if there was one. -/
structure InitDBOutcome (δ : Type) where
  opens : List (Dialect × String)
  DB : Option δ
  fatal : Option String

/-- The tail of `InitDB`: the `if err != nil` check after the `switch`. -/
def InitDB.finish {δ : Type} (opens : List (Dialect × String)) (r : Option δ × Option String) :
    InitDBOutcome δ :=
  match r.2 with
  | some err => { opens := opens, DB := r.1, fatal := some ("failed to connect database:" ++ err) }
  | none => { opens := opens, DB := r.1, fatal := none }

/-- The function `InitDB` of `spark.go`. `gormOpen d dsn` stands for
`gorm.Open(d.Open(dsn), &gorm.Config{})` and gives the returned handle and error.
`log.Fatal` prints its operands as `fmt.Sprint` does (no blank between two
operands when one of them is a string) and exits, so nothing after it runs. -/
def InitDB {δ : Type} (settings : Settings)
    (gormOpen : Dialect → String → Option δ × Option String) : InitDBOutcome δ :=
  if settings.db_driver = "sqlite" then
    InitDB.finish [(Dialect.sqlite, settings.database)] (gormOpen .sqlite settings.database)
  else if settings.db_driver = "mysql" then
    InitDB.finish [(Dialect.mysql, settings.database)] (gormOpen .mysql settings.database)
  else if settings.db_driver = "postgres" then
    InitDB.finish [(Dialect.postgres, settings.database)] (gormOpen .postgres settings.database)
  else
    { opens := [], DB := none, fatal := some ("unsupported db driver:" ++ settings.db_driver) }

/-! ## SaveUploadedFile -/

/-- The part of `multipart.FileHeader` the code reads. -/
structure FileHeader where
  Filename : String
  Size : Nat
deriving DecidableEq, Repr

/-- What one call of `Request.SaveUploadedFile` did: the calls it made to gin's
`Context.SaveUploadedFile` (file and destination) and the error it returned. -/
structure SaveOutcome where
  saves : List (FileHeader × String)
  err : Option String
deriving DecidableEq, Repr

/-- The method `Request.SaveUploadedFile` of `spark.go`. `formFile` stands for
`r.FormFile`, `filepathJoin` for `filepath.Join` on two elements, `ginSave` for
the error returned by gin's `Context.SaveUploadedFile`, and `dst` is the
variadic argument. -/
def SaveUploadedFile (settings : Settings)
    (formFile : String → Except String FileHeader)
    (filepathJoin : String → String → String)
    (ginSave : FileHeader → String → Option String)
    (field : String) (dst : List String) : SaveOutcome :=
  match formFile field with
  | .error err => { saves := [], err := some err }
  | .ok file =>
    let custom : Option String :=
      match dst with
      | d0 :: _ => if d0 ≠ "" then some d0 else none
      | [] => none
    match custom with
    | some d0 => { saves := [(file, d0)], err := ginSave file d0 }
    | none =>
      if settings.uploads ≠ "" then
        { saves := [(file, filepathJoin settings.uploads file.Filename)],
          err := ginSave file (filepathJoin settings.uploads file.Filename) }
      else
        { saves := [],
          err := some "no upload destination provided and APP_SETTINGS.uploads not set" }

/-! ## Go maps -/

/-- A Go `map[string]α`, kept as its list of entries. A well-formed map has
pairwise distinct keys (`GoMap.WF`); `range` visits the entries in list order,
which stands for whatever order the Go runtime picks. -/
structure GoMap (α : Type) where
  entries : List (String × α)
deriving DecidableEq, Repr

namespace GoMap

/-- The empty map, `make(map[string]α)`. -/
def empty {α : Type} : GoMap α := ⟨[]⟩

/-- The keys of the map. -/
def keys {α : Type} (m : GoMap α) : List String := m.entries.map Prod.fst

/-- Well-formedness: no key occurs twice. -/
def WF {α : Type} (m : GoMap α) : Prop := m.keys.Nodup

instance {α : Type} (m : GoMap α) : Decidable m.WF :=
  inferInstanceAs (Decidable m.keys.Nodup)

/-- The lookup `m[k]`, with `none` for an absent key. -/
def get {α : Type} (m : GoMap α) (k : String) : Option α := m.entries.lookup k

/-- The assignment `m[k] = v`. -/
def set {α : Type} (m : GoMap α) (k : String) (v : α) : GoMap α :=
  ⟨(k, v) :: m.entries.filter (fun e => e.1 != k)⟩

end GoMap

/-! ## The request -/

/-- One entry of `gin.Params`. -/
structure Param where
  Key : String
  Value : String
deriving DecidableEq, Repr

/-- The request-side data of a `*gin.Context` that the code reads:
`c.FullPath()`, `c.Params`, the parsed `c.Request.URL.Query()`,
`c.Request.Method`, `c.Request.URL.Path` and `c.Request.Header`. -/
structure GinContext where
  fullPath : String
  Params : List Param
  urlQuery : GoMap (List String)
  Method : String
  urlPath : String
  Header : GoMap (List String)
deriving DecidableEq, Repr

/-- The method `GetHeader` of gin: the first value stored under the key, or the empty string. -/
def GinContext.GetHeader (c : GinContext) (key : String) : String :=
  match c.Header.get key with
  | some (v :: _) => v
  | _ => ""

/-- The struct `Request` of `spark.go`; `Context` is the embedded `*gin.Context`. -/
structure Request where
  Context : GinContext
  Route : String
  Params : GoMap String
  Query : GoMap String
deriving DecidableEq, Repr

/-- The function `buildRequest` of `spark.go`. -/
def buildRequest (c : GinContext) (route : String) : Request :=
  let params := c.Params.foldl (fun (m : GoMap String) p => m.set p.Key p.Value) GoMap.empty
  let query := c.urlQuery.entries.foldl
    (fun (m : GoMap String) kv =>
      match kv.2 with
      | v0 :: _ => m.set kv.1 v0
      | [] => m)
    GoMap.empty
  { Context := c, Route := route, Params := params, Query := query }

/-- The value of the last path parameter of `ps` whose key is `k`, as the
specification words it: a later parameter with the key takes precedence. -/
def lastParamValue (ps : List Param) (k : String) : Option String :=
  match ps with
  | [] => none
  | p :: rest =>
    match lastParamValue rest k with
    | some v => some v
    | none => if p.Key = k then some p.Value else none

/-! ## Middleware -/

/-- The type `jwt.MapClaims`, with values kept as text. -/
abbrev MapClaims := GoMap String

/-- The call a handler makes on its context, or the call of a middleware function.
`AbortWithStatusJSON`, `AbortWithStatus`, `Set`, `Next` and `Header` are the gin
methods of those names, `logPrintf` is `log.Printf` with its formatted line,
`call r` records that a wrapper called its middleware with the request `r`, and
`nilDeref` is the run-time panic of reading a field through a nil pointer, after
which the function makes no further call. -/
inductive Action
  | AbortWithStatusJSON (code : Nat) (obj : List (String × String))
  | AbortWithStatus (code : Nat)
  | Set (key : String) (value : MapClaims)
  | Next
  | Header (key : String) (value : String)
  | logPrintf (line : String)
  | call (r : Request)
  | nilDeref
deriving DecidableEq, Repr

/-- Whether the call aborts the chain: gin's `AbortWithStatusJSON` and
`AbortWithStatus` both call `Abort`. -/
def Action.isAbort : Action → Bool
  | .AbortWithStatusJSON _ _ => true
  | .AbortWithStatus _ => true
  | _ => false

/-- Whether the call is `Next`. -/
def Action.isNext : Action → Bool
  | .Next => true
  | _ => false

/-- Whether the call is a run-time panic. -/
def Action.isPanic : Action → Bool
  | .nilDeref => true
  | _ => false

/-- The calls made by running `body` and then `rest` in one Go function: a panic
in `body` unwinds the function, so nothing after it is reached. -/
def thenDo (body rest : List Action) : List Action :=
  match body with
  | [] => rest
  | a :: body' => if a.isPanic then [a] else a :: thenDo body' rest

/-- The type `Middleware` of `spark.go`, `func(Request)`: for a request, the
sequence of calls the function makes before it returns. -/
abbrev Middleware := Request → List Action

/-- A `gin.HandlerFunc`, in the same way. -/
abbrev HandlerFunc := GinContext → List Action

/-- The function `Use` of `spark.go`: the handler it registers with `Router.Use`. -/
def Use (m : Middleware) : HandlerFunc := fun c =>
  thenDo (Action.call (buildRequest c c.fullPath) :: m (buildRequest c c.fullPath))
    [Action.Next]

/-- The function `UseOn` of `spark.go`: the handler it registers with `Router.Use`. -/
def UseOn (path : String) (m : Middleware) : HandlerFunc := fun c =>
  thenDo
    (if c.fullPath = path then Action.call (buildRequest c path) :: m (buildRequest c path)
     else [])
    [Action.Next]

/-- The part of `*jwt.Token` the code reads. -/
structure Token where
  Raw : String
  Valid : Bool
deriving DecidableEq, Repr

/-- What `jwt.ParseWithClaims` hands back: the token pointer (`none` for nil), the
claims map it filled in, and the error (`none` for nil). -/
structure ParseResult where
  token : Option Token
  claims : MapClaims
  err : Option String
deriving DecidableEq, Repr

/-- The package variable `JWT_SECRET` with its shipped initial value. -/
def JWT_SECRET : String := "supersecret"

/-- The function `VerifyToken` of `spark.go`. `parseWithClaims tokenStr key` stands
for `jwt.ParseWithClaims` run on `tokenStr` with a key function that returns `key`;
the secret is a parameter because the package variable can be reassigned. -/
def VerifyToken (parseWithClaims : String → String → ParseResult) (secret : String)
    (tokenStr : String) : Option Token × MapClaims × Option String :=
  let r := parseWithClaims tokenStr secret
  (r.token, r.claims, r.err)

/-- The function `JWTMiddleware` of `spark.go`. The condition
`err != nil || !token.Valid` reads `token.Valid` only when `err` is nil, and
panics there when `token` is nil. -/
def JWTMiddleware (parseWithClaims : String → String → ParseResult) (secret : String) :
    Middleware := fun r =>
  let auth := r.Context.GetHeader "Authorization"
  if auth = "" then
    [Action.AbortWithStatusJSON 401 [("error", "missing token")]]
  else
    match VerifyToken parseWithClaims secret auth with
    | (_, _, some _) => [Action.AbortWithStatusJSON 401 [("error", "invalid token")]]
    | (none, _, none) => [Action.nilDeref]
    | (some token, claims, none) =>
      if !token.Valid then
        [Action.AbortWithStatusJSON 401 [("error", "invalid token")]]
      else
        [Action.Set "claims" claims, Action.Next]

/-- The function `LoggerMiddleware` of `spark.go`. -/
def LoggerMiddleware : Middleware := fun r =>
  [Action.logPrintf ("[" ++ r.Context.Method ++ "] " ++ r.Context.urlPath), Action.Next]

/-- The function `CORSMiddleware` of `spark.go`. -/
def CORSMiddleware : Middleware := fun r =>
  [Action.Header "Access-Control-Allow-Origin" "*",
   Action.Header "Access-Control-Allow-Methods" "GET, POST, PUT, DELETE, OPTIONS",
   Action.Header "Access-Control-Allow-Headers" "Authorization, Content-Type"] ++
  (if r.Context.Method = "OPTIONS" then [Action.AbortWithStatus 204] else [Action.Next])

/-! ## The handler chain of the router -/

/-- The mutable part of a `*gin.Context` while a request is served: the handler
index, the positions of the handlers started so far (oldest first) and the other
calls made on the context (oldest first). -/
structure Context where
  index : Int
  ran : List Nat
  effects : List Action
deriving DecidableEq, Repr

/-- What the chain interpreter is asked to run: the body of one handler, or the
`for` loop of `Next`. -/
inductive Task
  | handler (body : List Action)
  | loop
deriving DecidableEq, Repr

/-- Modelled from the spec: gin's `Context.Next` and `Context.Abort`, which are
library code outside this repository. `Next` advances the index and runs the
remaining handlers in order: `c.index++; for c.index < len(c.handlers)
{ c.handlers[c.index](c); c.index++ }`. `Abort` moves the index past the end, to
`abortIndex`. `handlers` gives each handler of the chain as the calls it makes for
the request being served. The index is kept as an unbounded integer and
`abortIndex` is a parameter (gin uses 63 and refuses longer chains). The result is
`none` when the fuel runs out, a handler panics, or the index is negative. -/
def exec (handlers : List (List Action)) (abortIndex : Int) :
    Nat → Task → Context → Option Context
  | 0, _, _ => none
  | fuel + 1, .loop, c =>
    if c.index < handlers.length then
      if c.index < 0 then none
      else
        match handlers.get? c.index.toNat with
        | none => none
        | some body =>
          match exec handlers abortIndex fuel (.handler body)
              { c with ran := c.ran ++ [c.index.toNat] } with
          | none => none
          | some c1 => exec handlers abortIndex fuel .loop { c1 with index := c1.index + 1 }
    else some c
  | _ + 1, .handler [], c => some c
  | fuel + 1, .handler (a :: rest), c =>
    if a.isPanic then none
    else if a.isNext then
      match exec handlers abortIndex fuel .loop { c with index := c.index + 1 } with
      | none => none
      | some c1 => exec handlers abortIndex fuel (.handler rest) c1
    else if a.isAbort then
      exec handlers abortIndex fuel (.handler rest)
        { c with index := abortIndex, effects := c.effects ++ [a] }
    else
      exec handlers abortIndex fuel (.handler rest) { c with effects := c.effects ++ [a] }

/-- The context of a request before its first handler runs: gin resets the index to `-1`. -/
def Context.fresh : Context := { index := -1, ran := [], effects := [] }

/-- Modelled from the spec: the router serving one request, which is one call of
`Next` on the fresh context. -/
def serve (handlers : List (List Action)) (abortIndex : Int) (fuel : Nat) : Option Context :=
  exec handlers abortIndex fuel (.handler [Action.Next]) Context.fresh

/-- How often the handler at position `j` of the chain was started. -/
def Context.runs (c : Context) (j : Nat) : Nat := c.ran.count j

/-- The body aborts the chain before it calls `Next` or panics. -/
def abortsFirst : List Action → Bool
  | [] => false
  | a :: rest => a.isAbort || (!a.isNext && !a.isPanic && abortsFirst rest)

/-- No call of the body panics. -/
def noPanic (body : List Action) : Bool := body.all (fun a => !a.isPanic)

/-- How many handlers of the chain the router starts for a request: all of them up
to and including the first that aborts before calling `Next`. -/
def reach : List (List Action) → Nat
  | [] => 0
  | h :: rest => if abortsFirst h then 1 else 1 + reach rest

/-- No handler that the router starts panics: the handlers up to and including the
first that aborts before calling `Next` are free of panics. -/
def calm : List (List Action) → Bool
  | [] => true
  | h :: rest => noPanic h && (abortsFirst h || calm rest)

/-! ## createFolders -/

/-- A non-nil error of `os.Stat`: the path does not exist, or anything else. -/
inductive StatErr
  | notExist
  | other
deriving DecidableEq, Repr

/-- The function `os.IsNotExist` on the error of `os.Stat` (`none` for nil). -/
def IsNotExist : Option StatErr → Bool
  | some .notExist => true
  | _ => false

/-- The two file-system calls of `createFolders` over an explicit file-system
state `σ`: `Stat fs path` is the error of `os.Stat(path)`, and
`MkdirAll fs path perm` the state after `os.MkdirAll(path, perm)` with its error. -/
structure OS (σ : Type) where
  Stat : σ → String → Option StatErr
  MkdirAll : σ → String → Nat → σ × Option String

/-- What one run of `createFolders` did: the file-system state it left, its
`os.MkdirAll` calls (path and mode, oldest first) and the lines it logged. -/
structure FoldersOutcome (σ : Type) where
  fs : σ
  mkdirs : List (String × Nat)
  log : List String

/-- The body of the `for` loop of `createFolders` for the folder `f`. -/
def createFolders.body {σ : Type} (os : OS σ) (settings : Settings)
    (acc : FoldersOutcome σ) (f : String) : FoldersOutcome σ :=
  if f = "" then acc
  else if IsNotExist (os.Stat acc.fs f) then
    let r := os.MkdirAll acc.fs f 0o755
    let mkdirs := acc.mkdirs ++ [(f, 0o755)]
    match r.2, settings.debug with
    | some err, true =>
      { fs := r.1, mkdirs := mkdirs,
        log := acc.log ++ ["failed to create folder " ++ f ++ ": " ++ err] }
    | _, true =>
      { fs := r.1, mkdirs := mkdirs, log := acc.log ++ ["created missing folder " ++ f] }
    | _, false => { fs := r.1, mkdirs := mkdirs, log := acc.log }
  else acc

/-- The function `createFolders` of `spark.go`, run on the file-system state `fs`. -/
def createFolders {σ : Type} (os : OS σ) (settings : Settings) (fs : σ) : FoldersOutcome σ :=
  let folders := [settings.templates, settings.layouts, settings.views, settings.static]
  let folders := if settings.uploads ≠ "" then folders ++ [settings.uploads] else folders
  folders.foldl (createFolders.body os settings) { fs := fs, mkdirs := [], log := [] }

/-- The configured folders in the order the claim names them. -/
def configuredFolders (settings : Settings) : List String :=
  [settings.templates, settings.layouts, settings.views, settings.static, settings.uploads]

/-- The creation attempts as the specification words them: going through the
folders in order, a folder is attempted (mode 0755) exactly when its name is
non-empty and the existence check on the current state reports that it does not
exist; the state moves on by the attempt whether or not it failed. -/
def specAttempts {σ : Type} (os : OS σ) : List String → σ → List (String × Nat) × σ
  | [], fs => ([], fs)
  | f :: rest, fs =>
    if f ≠ "" ∧ IsNotExist (os.Stat fs f) = true then
      let r := specAttempts os rest (os.MkdirAll fs f 0o755).1
      ((f, 0o755) :: r.1, r.2)
    else specAttempts os rest fs

/-! ## Theorems -/

/-! ### Go maps -/

theorem lookup_filter_ne {α : Type} (k k' : String) (h : k' ≠ k) (l : List (String × α)) :
    (l.filter (fun e => e.1 != k)).lookup k' = l.lookup k' := by
  induction l with
  | nil => rfl
  | cons e rest ih =>
    obtain ⟨ek, ev⟩ := e
    by_cases hk : ek = k
    · subst hk
      have hne : (k' == ek) = false := by simpa using h
      simp [List.filter_cons, List.lookup_cons, hne, ih]
    · have hk' : (ek != k) = true := by simpa using hk
      by_cases hkk : k' = ek
      · subst hkk
        simp [List.filter_cons, hk', List.lookup_cons]
      · have hne : (k' == ek) = false := by simpa using hkk
        simp [List.filter_cons, hk', List.lookup_cons, hne, ih]

theorem GoMap.get_set {α : Type} (m : GoMap α) (k k' : String) (v : α) :
    (m.set k v).get k' = if k' = k then some v else m.get k' := by
  by_cases h : k' = k
  · subst h
    simp [GoMap.set, GoMap.get, List.lookup_cons]
  · have hne : (k' == k) = false := by simpa using h
    simp [GoMap.set, GoMap.get, List.lookup_cons, hne, h, lookup_filter_ne k k' h]

theorem GoMap.WF_empty {α : Type} : (GoMap.empty : GoMap α).WF := by
  simp [GoMap.WF, GoMap.keys, GoMap.empty]

theorem GoMap.WF_set {α : Type} (m : GoMap α) (k : String) (v : α) (h : m.WF) :
    (m.set k v).WF := by
  unfold GoMap.WF GoMap.keys at *
  simp only [GoMap.set, List.map_cons, List.nodup_cons]
  constructor
  · simp [List.mem_map, List.mem_filter]
  · exact h.sublist (List.Sublist.map _ (List.filter_sublist _))

theorem lookup_isSome_iff {α : Type} (k : String) (l : List (String × α)) :
    (l.lookup k).isSome = true ↔ k ∈ l.map Prod.fst := by
  induction l with
  | nil => simp
  | cons e rest ih =>
    obtain ⟨ek, ev⟩ := e
    by_cases hk : k = ek
    · subst hk
      simp [List.lookup_cons]
    · have hne : (k == ek) = false := by simpa using hk
      simp [List.lookup_cons, hne, ih, hk]

theorem GoMap.mem_keys_iff {α : Type} (m : GoMap α) (k : String) :
    k ∈ m.keys ↔ ∃ v, m.get k = some v := by
  rw [← Option.isSome_iff_exists]
  exact (lookup_isSome_iff k m.entries).symm

theorem lookup_eq_none_of_not_mem {α : Type} (k : String) (l : List (String × α))
    (h : k ∉ l.map Prod.fst) : l.lookup k = none := by
  cases hl : l.lookup k with
  | none => rfl
  | some v => exact absurd ((lookup_isSome_iff k l).mp (by simp [hl])) h

/-! ### buildRequest -/

theorem foldl_params_get (ps : List Param) (acc : GoMap String) (k : String) :
    (ps.foldl (fun (m : GoMap String) p => m.set p.Key p.Value) acc).get k =
      match lastParamValue ps k with
      | some v => some v
      | none => acc.get k := by
  induction ps generalizing acc with
  | nil => simp [lastParamValue]
  | cons p rest ih =>
    rw [List.foldl_cons, ih, lastParamValue]
    cases lastParamValue rest k with
    | some v => rfl
    | none =>
      by_cases hk : p.Key = k
      · simp [GoMap.get_set, hk]
      · have hk' : ¬ k = p.Key := fun h => hk h.symm
        simp [GoMap.get_set, hk, hk']

theorem foldl_params_WF (ps : List Param) (acc : GoMap String) (h : acc.WF) :
    (ps.foldl (fun (m : GoMap String) p => m.set p.Key p.Value) acc).WF := by
  induction ps generalizing acc with
  | nil => exact h
  | cons p rest ih => exact ih _ (GoMap.WF_set acc p.Key p.Value h)

theorem lastParamValue_isSome_iff (ps : List Param) (k : String) :
    (∃ v, lastParamValue ps k = some v) ↔ ∃ p ∈ ps, p.Key = k := by
  induction ps with
  | nil => simp [lastParamValue]
  | cons p rest ih =>
    rw [lastParamValue]
    cases hr : lastParamValue rest k with
    | some v =>
      have : ∃ q ∈ rest, q.Key = k := ih.mp ⟨v, hr⟩
      obtain ⟨q, hq, hqk⟩ := this
      simp only [Option.some.injEq, exists_eq', List.mem_cons, true_iff]
      exact ⟨q, Or.inr hq, hqk⟩
    | none =>
      have hno : ¬ ∃ q ∈ rest, q.Key = k := fun h => by
        obtain ⟨v, hv⟩ := ih.mpr h
        rw [hr] at hv
        cases hv
      by_cases hk : p.Key = k
      · simp [hk]
      · simp only [hk, if_false, List.mem_cons]
        constructor
        · rintro ⟨v, hv⟩
          cases hv
        · rintro ⟨q, hq | hq, hqk⟩
          · subst hq
            exact absurd hqk hk
          · exact absurd ⟨q, hq, hqk⟩ hno

theorem foldl_query_get (es : List (String × List String)) (acc : GoMap String) (k : String)
    (h : (es.map Prod.fst).Nodup) :
    (es.foldl (fun (m : GoMap String) kv =>
        match kv.2 with
        | v0 :: _ => m.set kv.1 v0
        | [] => m) acc).get k =
      match es.lookup k with
      | some (v :: _) => some v
      | _ => acc.get k := by
  induction es generalizing acc with
  | nil => simp
  | cons e rest ih =>
    obtain ⟨ek, ev⟩ := e
    simp only [List.map_cons, List.nodup_cons] at h
    rw [List.foldl_cons, ih _ h.2]
    by_cases hk : k = ek
    · subst hk
      rw [lookup_eq_none_of_not_mem k rest h.1]
      cases ev with
      | nil => simp [List.lookup_cons]
      | cons v vs => simp [List.lookup_cons, GoMap.get_set]
    · have hne : (k == ek) = false := by simpa using hk
      have hacc : (match ev with
          | v0 :: _ => acc.set ek v0
          | [] => acc).get k = acc.get k := by
        cases ev with
        | nil => rfl
        | cons v vs => simp [GoMap.get_set, hk]
      simp only [List.lookup_cons, hne, hacc]

theorem foldl_query_WF (es : List (String × List String)) (acc : GoMap String) (h : acc.WF) :
    (es.foldl (fun (m : GoMap String) kv =>
        match kv.2 with
        | v0 :: _ => m.set kv.1 v0
        | [] => m) acc).WF := by
  induction es generalizing acc with
  | nil => exact h
  | cons e rest ih =>
    rw [List.foldl_cons]
    apply ih
    cases e.2 with
    | nil => exact h
    | cons v vs => exact GoMap.WF_set acc e.1 v h

/-! ### createFolders -/

theorem specAttempts_append {σ : Type} (os : OS σ) (l1 l2 : List String) (fs : σ) :
    specAttempts os (l1 ++ l2) fs =
      ((specAttempts os l1 fs).1 ++ (specAttempts os l2 (specAttempts os l1 fs).2).1,
        (specAttempts os l2 (specAttempts os l1 fs).2).2) := by
  induction l1 generalizing fs with
  | nil => simp [specAttempts]
  | cons f rest ih =>
    simp only [List.cons_append, specAttempts]
    split
    · simp [ih]
    · exact ih fs

theorem foldl_body_eq {σ : Type} (os : OS σ) (settings : Settings) (l : List String)
    (acc : FoldersOutcome σ) :
    (l.foldl (createFolders.body os settings) acc).mkdirs =
        acc.mkdirs ++ (specAttempts os l acc.fs).1 ∧
      (l.foldl (createFolders.body os settings) acc).fs = (specAttempts os l acc.fs).2 := by
  induction l generalizing acc with
  | nil => simp [specAttempts]
  | cons f rest ih =>
    rw [List.foldl_cons, specAttempts]
    by_cases hf : f = ""
    · have hb : createFolders.body os settings acc f = acc := by simp [createFolders.body, hf]
      rw [hb]
      simpa [hf] using ih acc
    · by_cases hs : IsNotExist (os.Stat acc.fs f) = true
      · have hb : (createFolders.body os settings acc f).mkdirs = acc.mkdirs ++ [(f, 0o755)] ∧
            (createFolders.body os settings acc f).fs = (os.MkdirAll acc.fs f 0o755).1 := by
          simp only [createFolders.body, hf, hs, if_false, if_true]
          split <;> exact ⟨rfl, rfl⟩
        have := ih (createFolders.body os settings acc f)
        rw [hb.1, hb.2] at this
        simpa [hf, hs] using this
      · have hb : createFolders.body os settings acc f = acc := by
          simp [createFolders.body, hf, hs]
        rw [hb]
        simpa [hf, hs] using ih acc

theorem specAttempts_mem {σ : Type} (os : OS σ) (l : List String) (fs : σ) (p : String × Nat)
    (hp : p ∈ (specAttempts os l fs).1) :
    p.1 ∈ l ∧ p.1 ≠ "" ∧ p.2 = 0o755 ∧ ∃ fs', IsNotExist (os.Stat fs' p.1) = true := by
  induction l generalizing fs with
  | nil => simp [specAttempts] at hp
  | cons f rest ih =>
    rw [specAttempts] at hp
    by_cases hc : f ≠ "" ∧ IsNotExist (os.Stat fs f) = true
    · rw [if_pos hc] at hp
      rcases List.mem_cons.mp hp with h | h
      · subst h
        exact ⟨List.mem_cons_self _ _, hc.1, rfl, fs, hc.2⟩
      · have := ih _ h
        exact ⟨List.mem_cons_of_mem _ this.1, this.2⟩
    · rw [if_neg hc] at hp
      have := ih _ hp
      exact ⟨List.mem_cons_of_mem _ this.1, this.2⟩

theorem specAttempts_sublist {σ : Type} (os : OS σ) (l : List String) (fs : σ) :
    ((specAttempts os l fs).1.map Prod.fst).Sublist l := by
  induction l generalizing fs with
  | nil => simp [specAttempts]
  | cons f rest ih =>
    rw [specAttempts]
    split
    · exact (ih _).cons₂ f
    · exact (ih _).cons f

theorem specAttempts_nothing {σ : Type} (os : OS σ) (l : List String) (fs : σ)
    (h : ∀ f ∈ l, f = "" ∨ IsNotExist (os.Stat fs f) = false) :
    specAttempts os l fs = ([], fs) := by
  induction l with
  | nil => rfl
  | cons f rest ih =>
    rw [specAttempts]
    have hf := h f (List.mem_cons_self _ _)
    have hc : ¬ (f ≠ "" ∧ IsNotExist (os.Stat fs f) = true) := by
      rintro ⟨h1, h2⟩
      rcases hf with hf | hf
      · exact h1 hf
      · rw [hf] at h2
        cases h2
    rw [if_neg hc]
    exact ih (fun g hg => h g (List.mem_cons_of_mem _ hg))

theorem specAttempts_all {σ : Type} (os : OS σ) (l : List String) (fs : σ)
    (h : ∀ f ∈ l, f ≠ "" ∧ ∀ fs', IsNotExist (os.Stat fs' f) = true) :
    (specAttempts os l fs).1 = l.map (fun f => (f, 0o755)) := by
  induction l generalizing fs with
  | nil => rfl
  | cons f rest ih =>
    rw [specAttempts]
    have hf := h f (List.mem_cons_self _ _)
    rw [if_pos ⟨hf.1, hf.2 fs⟩]
    simp only [List.map_cons, List.cons.injEq, true_and]
    exact ih _ (fun g hg => h g (List.mem_cons_of_mem _ hg))

theorem createFolders_eq_spec {σ : Type} (os : OS σ) (settings : Settings) (fs : σ) :
    ((createFolders os settings fs).mkdirs, (createFolders os settings fs).fs) =
      specAttempts os (configuredFolders settings) fs := by
  have hsplit : configuredFolders settings =
      [settings.templates, settings.layouts, settings.views, settings.static] ++
        [settings.uploads] := rfl
  unfold createFolders
  by_cases hu : settings.uploads = ""
  · have h := foldl_body_eq os settings
      [settings.templates, settings.layouts, settings.views, settings.static]
      { fs := fs, mkdirs := [], log := [] }
    rw [hsplit, specAttempts_append]
    have hlast : ∀ fs', specAttempts os [settings.uploads] fs' = ([], fs') := by
      intro fs'
      simp [specAttempts, hu]
    rw [hlast]
    simp only [hu, ne_eq, not_true_eq_false, if_false, h.1, h.2, List.nil_append,
      List.append_nil]
  · have h := foldl_body_eq os settings
      ([settings.templates, settings.layouts, settings.views, settings.static] ++
        [settings.uploads])
      { fs := fs, mkdirs := [], log := [] }
    rw [hsplit]
    simp only [hu, ne_eq, not_false_eq_true, if_true, h.1, h.2, List.nil_append]

/-! ### The handler chain -/

theorem exec_zero (hs : List (List Action)) (ab : Int) (t : Task) (c : Context) :
    exec hs ab 0 t c = none := by
  unfold exec
  rfl

theorem exec_loop (hs : List (List Action)) (ab : Int) (n : Nat) (c : Context) :
    exec hs ab (n + 1) .loop c =
      if c.index < hs.length then
        if c.index < 0 then none
        else
          match hs.get? c.index.toNat with
          | none => none
          | some body =>
            match exec hs ab n (.handler body) { c with ran := c.ran ++ [c.index.toNat] } with
            | none => none
            | some c1 => exec hs ab n .loop { c1 with index := c1.index + 1 }
      else some c := by
  rw [exec]

theorem exec_nil (hs : List (List Action)) (ab : Int) (n : Nat) (c : Context) :
    exec hs ab (n + 1) (.handler []) c = some c := by
  rw [exec]

theorem exec_cons (hs : List (List Action)) (ab : Int) (n : Nat) (a : Action)
    (rest : List Action) (c : Context) :
    exec hs ab (n + 1) (.handler (a :: rest)) c =
      if a.isPanic then none
      else if a.isNext then
        match exec hs ab n .loop { c with index := c.index + 1 } with
        | none => none
        | some c1 => exec hs ab n (.handler rest) c1
      else if a.isAbort then
        exec hs ab n (.handler rest) { c with index := ab, effects := c.effects ++ [a] }
      else
        exec hs ab n (.handler rest) { c with effects := c.effects ++ [a] } := by
  rw [exec]

theorem exec_mono (hs : List (List Action)) (ab : Int) (n : Nat) :
    ∀ (t : Task) (c c' : Context), exec hs ab n t c = some c' →
      exec hs ab (n + 1) t c = some c' := by
  induction n with
  | zero =>
    intro t c c' h
    rw [exec_zero] at h
    cases h
  | succ n ih =>
    intro t c c' h
    cases t with
    | loop =>
      rw [exec_loop] at h ⊢
      by_cases h1 : c.index < hs.length
      · rw [if_pos h1] at h ⊢
        by_cases h2 : c.index < 0
        · rw [if_pos h2] at h
          cases h
        · rw [if_neg h2] at h ⊢
          cases hg : hs.get? c.index.toNat with
          | none =>
            rw [hg] at h
            cases h
          | some body =>
            rw [hg] at h
            simp only at h ⊢
            cases hb : exec hs ab n (.handler body)
                { c with ran := c.ran ++ [c.index.toNat] } with
            | none =>
              rw [hb] at h
              cases h
            | some c1 =>
              rw [hb] at h
              simp only at h
              rw [ih _ _ _ hb]
              exact ih _ _ _ h
      · rw [if_neg h1] at h ⊢
        exact h
    | handler body =>
      cases body with
      | nil =>
        rw [exec_nil] at h ⊢
        exact h
      | cons a rest =>
        rw [exec_cons] at h ⊢
        by_cases hp : a.isPanic = true
        · rw [if_pos hp] at h
          cases h
        · rw [if_neg hp] at h ⊢
          by_cases hn : a.isNext = true
          · rw [if_pos hn] at h ⊢
            cases hl : exec hs ab n .loop { c with index := c.index + 1 } with
            | none =>
              rw [hl] at h
              cases h
            | some c1 =>
              rw [hl] at h
              simp only at h
              rw [ih _ _ _ hl]
              exact ih _ _ _ h
          · rw [if_neg hn] at h ⊢
            by_cases ha : a.isAbort = true
            · rw [if_pos ha] at h ⊢
              exact ih _ _ _ h
            · rw [if_neg ha] at h ⊢
              exact ih _ _ _ h

theorem exec_mono_le (hs : List (List Action)) (ab : Int) (n k : Nat) (hnk : n ≤ k)
    (t : Task) (c c' : Context) (h : exec hs ab n t c = some c') :
    exec hs ab k t c = some c' := by
  induction hnk with
  | refl => exact h
  | step _ ih => exact exec_mono hs ab _ t c c' ih

theorem exec_loop_past (hs : List (List Action)) (ab : Int) (n : Nat) (c : Context)
    (hc : (hs.length : Int) ≤ c.index) : exec hs ab (n + 1) .loop c = some c := by
  rw [exec_loop, if_neg (not_lt.mpr hc)]

theorem noPanic_cons (a : Action) (rest : List Action) :
    noPanic (a :: rest) = true ↔ a.isPanic = false ∧ noPanic rest = true := by
  simp [noPanic]

theorem exec_handler_past (hs : List (List Action)) (ab : Int) (hab : (hs.length : Int) ≤ ab)
    (body : List Action) (hnp : noPanic body = true) (c : Context)
    (hc : (hs.length : Int) ≤ c.index) :
    ∃ c', exec hs ab (body.length + 1) (.handler body) c = some c' ∧
      (hs.length : Int) ≤ c'.index ∧ c'.ran = c.ran := by
  induction body generalizing c with
  | nil => exact ⟨c, exec_nil hs ab 0 c, hc, rfl⟩
  | cons a rest ih =>
    obtain ⟨hpa, hrest⟩ := (noPanic_cons a rest).mp hnp
    rw [List.length_cons, exec_cons]
    simp only [hpa, Bool.false_eq_true, if_false]
    by_cases hn : a.isNext = true
    · rw [if_pos hn, exec_loop_past hs ab rest.length _ (by simp only; omega)]
      obtain ⟨c', h1, h2, h3⟩ := ih hrest { c with index := c.index + 1 } (by simp only; omega)
      exact ⟨c', h1, h2, h3⟩
    · rw [if_neg hn]
      by_cases ha : a.isAbort = true
      · rw [if_pos ha]
        exact ih hrest _ hab
      · rw [if_neg ha]
        exact ih hrest _ hc



theorem isAbort_of_isNext (a : Action) (h : a.isNext = true) : a.isAbort = false := by
  cases a <;> simp_all [Action.isNext, Action.isAbort]

theorem abortsFirst_cons_false (a : Action) (rest : List Action)
    (h : abortsFirst (a :: rest) = false) (hn : a.isNext = false) (hp : a.isPanic = false) :
    a.isAbort = false ∧ abortsFirst rest = false := by
  simp only [abortsFirst, hn, hp, Bool.not_false, Bool.true_and, Bool.or_eq_false_iff] at h
  exact h

theorem exec_handler_abort (hs : List (List Action)) (ab : Int)
    (hab : (hs.length : Int) ≤ ab) (body : List Action)
    (haf : abortsFirst body = true) (hnp : noPanic body = true) (c : Context) :
    ∃ c', exec hs ab (body.length + 1) (.handler body) c = some c' ∧
      (hs.length : Int) ≤ c'.index ∧ c'.ran = c.ran := by
  induction body generalizing c with
  | nil => simp [abortsFirst] at haf
  | cons a rest ih =>
    obtain ⟨hpa, hrest⟩ := (noPanic_cons a rest).mp hnp
    rw [List.length_cons, exec_cons]
    simp only [hpa, Bool.false_eq_true, if_false]
    by_cases hn : a.isNext = true
    · simp [abortsFirst, hn, isAbort_of_isNext a hn] at haf
    · rw [if_neg hn]
      by_cases ha : a.isAbort = true
      · rw [if_pos ha]
        exact exec_handler_past hs ab hab rest hrest _ hab
      · rw [if_neg ha]
        have haf' : abortsFirst rest = true := by
          simp only [abortsFirst, Bool.or_eq_true, Bool.and_eq_true] at haf
          rcases haf with h | h
          · exact absurd h ha
          · exact h.2
        exact ih haf' hrest _

theorem exec_loop_step (hs : List (List Action)) (ab : Int) (c : Context) (i : Nat)
    (hc : c.index = (i : Int)) (h : List Action) (hget : hs.get? i = some h)
    (hlt : i < hs.length) (n : Nat) (c1 c2 : Context)
    (e1 : exec hs ab n (.handler h) { c with ran := c.ran ++ [i] } = some c1)
    (e2 : exec hs ab n .loop { c1 with index := c1.index + 1 } = some c2) :
    exec hs ab (n + 1) .loop c = some c2 := by
  have h1 : c.index < (hs.length : Int) := by
    rw [hc]
    exact_mod_cast hlt
  have h2 : ¬ c.index < 0 := by
    rw [hc]
    omega
  have h3 : c.index.toNat = i := by
    rw [hc]
    simp
  rw [exec_loop, if_pos h1, if_neg h2, h3, hget]
  simp only [e1, e2]

theorem get_middle (done rest : List (List Action)) (h : List Action) :
    (done ++ h :: rest).get? done.length = some h ∧
      done.length < (done ++ h :: rest).length := by
  constructor
  · rw [List.get?_eq_getElem?, List.getElem?_append_right (le_refl _)]
    simp
  · simp

theorem exec_handler_through (hs : List (List Action)) (ab : Int)
    (hab : (hs.length : Int) ≤ ab) (i : Nat) (K : List Nat)
    (hloop : ∀ c : Context, c.index = (i : Int) + 1 →
      ∃ n c', exec hs ab n .loop c = some c' ∧ (hs.length : Int) ≤ c'.index ∧
        c'.ran = c.ran ++ K)
    (body : List Action) (hnp : noPanic body = true) (hna : abortsFirst body = false)
    (c : Context) (hc : c.index = (i : Int)) :
    ∃ n c', exec hs ab n (.handler body) c = some c' ∧
      ((c'.index = (i : Int) ∧ c'.ran = c.ran) ∨
        ((hs.length : Int) ≤ c'.index ∧ c'.ran = c.ran ++ K)) := by
  induction body generalizing c with
  | nil => exact ⟨1, c, exec_nil hs ab 0 c, Or.inl ⟨hc, rfl⟩⟩
  | cons a rest ih =>
    obtain ⟨hpa, hrest⟩ := (noPanic_cons a rest).mp hnp
    by_cases hn : a.isNext = true
    · obtain ⟨n1, c1, h1, hi1, hr1⟩ := hloop { c with index := c.index + 1 } (by simp [hc])
      obtain ⟨c2, h2, hi2, hr2⟩ := exec_handler_past hs ab hab rest hrest c1 hi1
      refine ⟨max n1 (rest.length + 1) + 1, c2, ?_, Or.inr ⟨hi2, ?_⟩⟩
      · rw [exec_cons]
        simp only [hpa, Bool.false_eq_true, if_false, hn, if_true]
        rw [exec_mono_le hs ab n1 _ (le_max_left _ _) _ _ _ h1]
        exact exec_mono_le hs ab _ _ (le_max_right _ _) _ _ _ h2
      · rw [hr2, hr1]
    · have hn' : a.isNext = false := by simpa using hn
      obtain ⟨ha, hna'⟩ := abortsFirst_cons_false a rest hna hn' hpa
      obtain ⟨n, c', h, hres⟩ := ih hrest hna' { c with effects := c.effects ++ [a] } hc
      refine ⟨n + 1, c', ?_, hres⟩
      rw [exec_cons]
      simp only [hpa, Bool.false_eq_true, if_false, hn, ha]
      exact h

theorem exec_loop_run (hs : List (List Action)) (ab : Int) (hab : (hs.length : Int) ≤ ab) :
    ∀ (suffix done : List (List Action)), hs = done ++ suffix → calm suffix = true →
      ∀ c : Context, c.index = (done.length : Int) →
        ∃ n c', exec hs ab n .loop c = some c' ∧ (hs.length : Int) ≤ c'.index ∧
          c'.ran = c.ran ++ List.range' done.length (reach suffix) := by
  intro suffix
  induction suffix with
  | nil =>
    intro done hhs _ c hc
    refine ⟨1, c, exec_loop_past hs ab 0 c ?_, ?_, by simp [reach]⟩
    · rw [hc, hhs]; simp
    · rw [hc, hhs]; simp
  | cons h rest ih =>
    intro done hhs hcalm c hc
    obtain ⟨hget, hlt⟩ := get_middle done rest h
    rw [← hhs] at hget hlt
    have hcalm' : noPanic h = true ∧ (abortsFirst h = true ∨ calm rest = true) := by
      simpa [calm] using hcalm
    by_cases haf : abortsFirst h = true
    · obtain ⟨c1, h1, hi1, hr1⟩ :=
        exec_handler_abort hs ab hab h haf hcalm'.1 { c with ran := c.ran ++ [done.length] }
      refine ⟨h.length + 1 + 1, { c1 with index := c1.index + 1 },
        exec_loop_step hs ab c done.length hc h hget hlt _ c1 _ h1
          (exec_loop_past hs ab h.length _ (by simp only; omega)),
        by simp only; omega, ?_⟩
      simp [reach, haf, hr1]
    · have hna : abortsFirst h = false := by simpa using haf
      have hrest : calm rest = true := by
        rcases hcalm'.2 with h' | h'
        · exact absurd h' haf
        · exact h'
      have hloop : ∀ c : Context, c.index = (done.length : Int) + 1 →
          ∃ n c', exec hs ab n .loop c = some c' ∧ (hs.length : Int) ≤ c'.index ∧
            c'.ran = c.ran ++ List.range' (done.length + 1) (reach rest) := by
        intro c' hc'
        have := ih (done ++ [h]) (by rw [hhs]; simp) hrest c' (by rw [hc']; simp)
        simpa using this
      obtain ⟨n1, c1, h1, hres⟩ :=
        exec_handler_through hs ab hab done.length _ hloop h hcalm'.1 hna
          { c with ran := c.ran ++ [done.length] } hc
      have hran : c.ran ++ List.range' done.length (reach (h :: rest)) =
          (c.ran ++ [done.length]) ++ List.range' (done.length + 1) (reach rest) := by
        simp [reach, haf, Nat.add_comm 1 (reach rest), List.range'_succ]
      rcases hres with ⟨hi1, hr1⟩ | ⟨hi1, hr1⟩
      · obtain ⟨n2, c2, h2, hi2, hr2⟩ :=
          hloop { c1 with index := c1.index + 1 } (by simp [hi1])
        refine ⟨max n1 n2 + 1, c2,
          exec_loop_step hs ab c done.length hc h hget hlt _ c1 c2
            (exec_mono_le hs ab n1 _ (le_max_left _ _) _ _ _ h1)
            (exec_mono_le hs ab n2 _ (le_max_right _ _) _ _ _ h2), hi2, ?_⟩
        rw [hran, hr2]
        simp only [hr1]
      · refine ⟨max n1 1 + 1, { c1 with index := c1.index + 1 },
          exec_loop_step hs ab c done.length hc h hget hlt _ c1 _
            (exec_mono_le hs ab n1 _ (le_max_left _ _) _ _ _ h1)
            (exec_mono_le hs ab 1 _ (le_max_right _ _) _ _ _
              (exec_loop_past hs ab 0 _ (by simp only; omega))),
          by simp only; omega, ?_⟩
        rw [hran]
        simp only [hr1]

theorem serve_of_loop (hs : List (List Action)) (ab : Int) (n : Nat) (c' : Context)
    (h : exec hs ab n .loop { Context.fresh with index := 0 } = some c') :
    ∀ fuel, max n 1 + 1 ≤ fuel → serve hs ab fuel = some c' := by
  intro fuel hf
  apply exec_mono_le hs ab (max n 1 + 1) fuel hf
  rw [exec_cons]
  have h0 : ({ Context.fresh with index := Context.fresh.index + 1 } : Context) =
      { Context.fresh with index := 0 } := rfl
  simp only [Action.isPanic, Action.isNext, Bool.false_eq_true, if_false, if_true, h0]
  rw [exec_mono_le hs ab n _ (le_max_left _ _) _ _ _ h]
  exact exec_mono_le hs ab 1 _ (le_max_right _ _) _ _ _ (exec_nil hs ab 0 c')

theorem count_range (j n : Nat) : (List.range n).count j = if j < n then 1 else 0 := by
  by_cases h : j < n
  · rw [if_pos h]
    exact List.count_eq_one_of_mem (List.nodup_range n) (List.mem_range.mpr h)
  · rw [if_neg h]
    exact List.count_eq_zero_of_not_mem (fun hm => h (List.mem_range.mp hm))

theorem serve_run (hs : List (List Action)) (ab : Int) (hab : (hs.length : Int) ≤ ab)
    (hcalm : calm hs = true) :
    ∃ N c', (∀ fuel, N ≤ fuel → serve hs ab fuel = some c') ∧
      ∀ j, c'.runs j = if j < reach hs then 1 else 0 := by
  obtain ⟨n, c', h, _, hr⟩ :=
    exec_loop_run hs ab hab hs [] rfl hcalm { Context.fresh with index := 0 } rfl
  refine ⟨_, c', serve_of_loop hs ab n c' h, fun j => ?_⟩
  have hran : c'.ran = List.range (reach hs) := by
    rw [hr, List.range_eq_range']
    simp [Context.fresh]
  rw [Context.runs, hran, count_range]

/-! ### Which handlers the router starts -/

theorem calm_of_noPanic (l : List (List Action)) (h : ∀ b ∈ l, noPanic b = true) :
    calm l = true := by
  induction l with
  | nil => rfl
  | cons b rest ih =>
    simp [calm, h b (List.mem_cons_self _ _),
      ih (fun x hx => h x (List.mem_cons_of_mem _ hx))]

theorem calm_append_abort (l : List (List Action)) (b : List Action)
    (rest : List (List Action)) (h : ∀ x ∈ l, noPanic x = true) (hb : noPanic b = true)
    (hab : abortsFirst b = true) : calm (l ++ b :: rest) = true := by
  induction l with
  | nil => simp [calm, hb, hab]
  | cons x xs ih =>
    have hx := h x (List.mem_cons_self _ _)
    have := ih (fun y hy => h y (List.mem_cons_of_mem _ hy))
    show calm (x :: (xs ++ b :: rest)) = true
    simp [calm, hx, this]

theorem reach_append_abort_le (l : List (List Action)) (b : List Action)
    (rest : List (List Action)) (hab : abortsFirst b = true) :
    reach (l ++ b :: rest) ≤ l.length + 1 := by
  induction l with
  | nil => simp [reach, hab]
  | cons x xs ih =>
    show reach (x :: (xs ++ b :: rest)) ≤ (xs.length + 1) + 1
    simp only [reach]
    split <;> omega

theorem reach_append (l s : List (List Action)) (h : ∀ b ∈ l, abortsFirst b = false) :
    reach (l ++ s) = l.length + reach s := by
  induction l with
  | nil => simp
  | cons b rest ih =>
    have hb := h b (List.mem_cons_self _ _)
    have hr := ih (fun x hx => h x (List.mem_cons_of_mem _ hx))
    show reach (b :: (rest ++ s)) = (rest.length + 1) + reach s
    simp only [reach, hb, Bool.false_eq_true, if_false, hr]
    omega

theorem reach_pos (b : List Action) (rest : List (List Action)) : 0 < reach (b :: rest) := by
  simp only [reach]
  split <;> omega

theorem reach_eq_length (l : List (List Action))
    (h : ∀ b ∈ l.dropLast, abortsFirst b = false) : reach l = l.length := by
  induction l with
  | nil => rfl
  | cons b rest ih =>
    cases rest with
    | nil =>
      simp only [reach]
      split <;> rfl
    | cons b2 rest2 =>
      have hb : abortsFirst b = false := h b (by simp [List.dropLast])
      have hr := ih (fun x hx => h x (by
        simp only [List.dropLast_cons₂, List.mem_cons]
        exact Or.inr hx))
      simp only [reach, hb, Bool.false_eq_true, if_false] at hr ⊢
      rw [hr]
      simp only [List.length_cons]
      omega

theorem calm_of_append (l s : List (List Action)) (h : ∀ b ∈ l, abortsFirst b = false)
    (hc : calm (l ++ s) = true) : calm s = true := by
  induction l with
  | nil => exact hc
  | cons b rest ih =>
    have hb := h b (List.mem_cons_self _ _)
    have hc' : calm (b :: (rest ++ s)) = true := hc
    simp only [calm, hb, Bool.false_or, Bool.and_eq_true] at hc'
    exact ih (fun x hx => h x (List.mem_cons_of_mem _ hx)) hc'.2

theorem noPanic_of_thenDo (body rest : List Action) (h : noPanic (thenDo body rest) = true) :
    noPanic body = true := by
  induction body with
  | nil => rfl
  | cons a body' ih =>
    by_cases ha : a.isPanic = true
    · simp [thenDo, ha, noPanic] at h
    · have ha' : a.isPanic = false := by simpa using ha
      simp only [thenDo, ha', Bool.false_eq_true, if_false] at h
      obtain ⟨_, h2⟩ := (noPanic_cons _ _).mp h
      exact (noPanic_cons _ _).mpr ⟨ha', ih h2⟩

theorem abortsFirst_thenDo (body rest : List Action) (h : abortsFirst body = true) :
    abortsFirst (thenDo body rest) = true := by
  induction body with
  | nil => simp [abortsFirst] at h
  | cons a body' ih =>
    by_cases ha : a.isPanic = true
    · simp only [abortsFirst, ha, Bool.not_true, Bool.and_false, Bool.false_and,
        Bool.or_false] at h
      simp [thenDo, ha, abortsFirst, h]
    · have ha' : a.isPanic = false := by simpa using ha
      simp only [thenDo, ha', Bool.false_eq_true, if_false]
      simp only [abortsFirst, Bool.or_eq_true, Bool.and_eq_true] at h ⊢
      rcases h with h | h
      · exact Or.inl h
      · exact Or.inr ⟨h.1, ih h.2⟩

theorem thenDo_of_noPanic (body rest : List Action) (h : noPanic body = true) :
    thenDo body rest = body ++ rest := by
  induction body with
  | nil => rfl
  | cons a body' ih =>
    obtain ⟨ha, hb⟩ := (noPanic_cons a body').mp h
    simp [thenDo, ha, ih hb]

theorem abortsFirst_append_next (a : List Action) :
    abortsFirst (a ++ [Action.Next]) = abortsFirst a := by
  induction a with
  | nil => rfl
  | cons x rest ih =>
    show abortsFirst (x :: (rest ++ [Action.Next])) = abortsFirst (x :: rest)
    simp only [abortsFirst, ih]

theorem noPanic_append_next (a : List Action) (h : noPanic a = true) :
    noPanic (a ++ [Action.Next]) = true := by
  unfold noPanic at h ⊢
  simp only [List.all_append, h]
  rfl

theorem Use_eq (m : Middleware) (g : GinContext)
    (h : noPanic (m (buildRequest g g.fullPath)) = true) :
    Use m g =
      Action.call (buildRequest g g.fullPath) ::
        (m (buildRequest g g.fullPath) ++ [Action.Next]) := by
  show thenDo (Action.call _ :: _) _ = _
  rw [thenDo_of_noPanic]
  · rfl
  · exact (noPanic_cons _ _).mpr ⟨rfl, h⟩

theorem Use_flags (m : Middleware) (g : GinContext)
    (h : noPanic (m (buildRequest g g.fullPath)) = true) :
    noPanic (Use m g) = true ∧
      abortsFirst (Use m g) = abortsFirst (m (buildRequest g g.fullPath)) := by
  rw [Use_eq m g h]
  constructor
  · exact (noPanic_cons _ _).mpr ⟨rfl, noPanic_append_next _ h⟩
  · show abortsFirst (Action.call _ :: (_ ++ [Action.Next])) = _
    simp only [abortsFirst, abortsFirst_append_next, Action.isAbort, Action.isNext,
      Action.isPanic, Bool.not_false, Bool.true_and, Bool.false_or]

theorem Use_abortsFirst (m : Middleware) (g : GinContext)
    (h : abortsFirst (m (buildRequest g g.fullPath)) = true) :
    abortsFirst (Use m g) = true := by
  apply abortsFirst_thenDo
  simp [abortsFirst, h, Action.isAbort, Action.isNext, Action.isPanic]

theorem noPanic_of_Use (m : Middleware) (g : GinContext) (h : noPanic (Use m g) = true) :
    noPanic (m (buildRequest g g.fullPath)) = true :=
  ((noPanic_cons _ _).mp (noPanic_of_thenDo _ _ h)).2

theorem middleware_chain_behaviour (parseWithClaims : String → String → ParseResult)
    (secret : String) (r : Request) :
    (noPanic (LoggerMiddleware r) = true ∧ abortsFirst (LoggerMiddleware r) = false) ∧
    (noPanic (CORSMiddleware r) = true ∧
      (abortsFirst (CORSMiddleware r) = true ↔ r.Context.Method = "OPTIONS")) ∧
    ((noPanic (JWTMiddleware parseWithClaims secret r) = true ∧
        (abortsFirst (JWTMiddleware parseWithClaims secret r) = false ↔
          JWTMiddleware parseWithClaims secret r =
            [Action.Set "claims"
                (VerifyToken parseWithClaims secret
                  (r.Context.GetHeader "Authorization")).2.1,
              Action.Next])) ∨
      JWTMiddleware parseWithClaims secret r = [Action.nilDeref]) := by
  refine ⟨⟨rfl, rfl⟩, ?_, ?_⟩
  · by_cases h : r.Context.Method = "OPTIONS"
    · simp [CORSMiddleware, h, abortsFirst, noPanic, Action.isAbort, Action.isPanic,
        Action.isNext]
    · simp [CORSMiddleware, h, abortsFirst, noPanic, Action.isAbort, Action.isPanic,
        Action.isNext]
  · unfold JWTMiddleware VerifyToken
    by_cases ha : r.Context.GetHeader "Authorization" = ""
    · simp [ha, abortsFirst, noPanic, Action.isAbort, Action.isPanic]
    · rcases hp : parseWithClaims (r.Context.GetHeader "Authorization") secret with
        ⟨tok, cl, err⟩
      cases err with
      | some e => simp [ha, hp, abortsFirst, noPanic, Action.isAbort, Action.isPanic]
      | none =>
        cases tok with
        | none => simp [ha, hp]
        | some t =>
          rcases t with ⟨raw, valid⟩
          cases valid <;>
            simp [ha, hp, abortsFirst, noPanic, Action.isAbort, Action.isPanic,
              Action.isNext]

/-! ### The claims -/

/-- C1: `JWTMiddleware` aborts with status 401 and body `{"error": "missing token"}`
when the Authorization header is the empty string; otherwise it hands the header value
unchanged to `VerifyToken` and aborts with status 401 and body
`{"error": "invalid token"}` when that returns an error or a token that is not valid.
It stores the claims under `"claims"` and calls `Next` if and only if the header is
non-empty and `VerifyToken` returned no error and a valid token; in both rejecting
cases it neither stores anything nor calls `Next`. -/
theorem JWTMiddleware_contract (parseWithClaims : String → String → ParseResult)
    (secret : String) (r : Request) :
    (r.Context.GetHeader "Authorization" = "" →
      JWTMiddleware parseWithClaims secret r =
        [Action.AbortWithStatusJSON 401 [("error", "missing token")]]) ∧
    (r.Context.GetHeader "Authorization" ≠ "" →
      ((VerifyToken parseWithClaims secret (r.Context.GetHeader "Authorization")).2.2 ≠ none ∨
        ∃ t, (VerifyToken parseWithClaims secret (r.Context.GetHeader "Authorization")).1 = some t ∧
          t.Valid = false) →
      JWTMiddleware parseWithClaims secret r =
        [Action.AbortWithStatusJSON 401 [("error", "invalid token")]]) ∧
    ((r.Context.GetHeader "Authorization" ≠ "" ∧
        (VerifyToken parseWithClaims secret (r.Context.GetHeader "Authorization")).2.2 = none ∧
        ∃ t, (VerifyToken parseWithClaims secret (r.Context.GetHeader "Authorization")).1 = some t ∧
          t.Valid = true) ↔
      JWTMiddleware parseWithClaims secret r =
        [Action.Set "claims"
            (VerifyToken parseWithClaims secret (r.Context.GetHeader "Authorization")).2.1,
          Action.Next]) ∧
    ((∃ key value, Action.Set key value ∈ JWTMiddleware parseWithClaims secret r) ∨
        Action.Next ∈ JWTMiddleware parseWithClaims secret r →
      JWTMiddleware parseWithClaims secret r =
        [Action.Set "claims"
            (VerifyToken parseWithClaims secret (r.Context.GetHeader "Authorization")).2.1,
          Action.Next]) := by
  unfold JWTMiddleware VerifyToken
  generalize r.Context.GetHeader "Authorization" = auth
  by_cases ha : auth = ""
  · simp [ha]
  · rcases hp : parseWithClaims auth secret with ⟨tok, cl, err⟩
    cases err with
    | some e => simp [ha, hp]
    | none =>
      cases tok with
      | none => simp [ha, hp]
      | some t =>
        rcases t with ⟨raw, valid⟩
        cases valid <;> simp [ha, hp]

/-- C1 at concrete requests: no header is rejected as missing, a header whose token
fails verification as invalid, and a header whose token verifies stores the claims and
calls `Next`. -/
theorem JWTMiddleware_contract_witness :
    JWTMiddleware (fun _ _ => ⟨none, ⟨[]⟩, some "token is malformed"⟩) JWT_SECRET
        ⟨⟨"/me", [], ⟨[]⟩, "GET", "/me", ⟨[]⟩⟩, "/me", ⟨[]⟩, ⟨[]⟩⟩ =
      [Action.AbortWithStatusJSON 401 [("error", "missing token")]] ∧
    JWTMiddleware (fun _ _ => ⟨none, ⟨[]⟩, some "token is malformed"⟩) JWT_SECRET
        ⟨⟨"/me", [], ⟨[]⟩, "GET", "/me", ⟨[("Authorization", ["Bearer abc"])]⟩⟩,
          "/me", ⟨[]⟩, ⟨[]⟩⟩ =
      [Action.AbortWithStatusJSON 401 [("error", "invalid token")]] ∧
    JWTMiddleware (fun tokenStr _ => ⟨some ⟨tokenStr, true⟩, ⟨[("user_id", "7")]⟩, none⟩)
        JWT_SECRET
        ⟨⟨"/me", [], ⟨[]⟩, "GET", "/me", ⟨[("Authorization", ["abc"])]⟩⟩,
          "/me", ⟨[]⟩, ⟨[]⟩⟩ =
      [Action.Set "claims" ⟨[("user_id", "7")]⟩, Action.Next] :=
  ⟨(JWTMiddleware_contract (fun _ _ => ⟨none, ⟨[]⟩, some "token is malformed"⟩) JWT_SECRET
      ⟨⟨"/me", [], ⟨[]⟩, "GET", "/me", ⟨[]⟩⟩, "/me", ⟨[]⟩, ⟨[]⟩⟩).1 (by decide),
   (JWTMiddleware_contract (fun _ _ => ⟨none, ⟨[]⟩, some "token is malformed"⟩) JWT_SECRET
      ⟨⟨"/me", [], ⟨[]⟩, "GET", "/me", ⟨[("Authorization", ["Bearer abc"])]⟩⟩,
        "/me", ⟨[]⟩, ⟨[]⟩⟩).2.1 (by decide) (Or.inl (by decide)),
   (JWTMiddleware_contract
      (fun tokenStr _ => ⟨some ⟨tokenStr, true⟩, ⟨[("user_id", "7")]⟩, none⟩) JWT_SECRET
      ⟨⟨"/me", [], ⟨[]⟩, "GET", "/me", ⟨[("Authorization", ["abc"])]⟩⟩,
        "/me", ⟨[]⟩, ⟨[]⟩⟩).2.2.1.mp ⟨by decide, rfl, ⟨"abc", true⟩, rfl, rfl⟩⟩

/-- C2: `Request.SaveUploadedFile` returns the error of a failed form file lookup and
saves nothing; after a successful lookup it saves to exactly `dst[0]` when `dst` is
non-empty and `dst[0]` is not the empty string, whatever `APP_SETTINGS.uploads` is;
otherwise to `filepath.Join(APP_SETTINGS.uploads, fn)` when `uploads` is non-empty;
otherwise it returns the error
`"no upload destination provided and APP_SETTINGS.uploads not set"` and saves nothing. -/
theorem SaveUploadedFile_destination (settings : Settings)
    (formFile : String → Except String FileHeader)
    (filepathJoin : String → String → String)
    (ginSave : FileHeader → String → Option String)
    (field : String) (dst : List String) :
    (∀ err, formFile field = .error err →
      SaveUploadedFile settings formFile filepathJoin ginSave field dst =
        { saves := [], err := some err }) ∧
    (∀ file, formFile field = .ok file →
      (∀ d0 rest, dst = d0 :: rest → d0 ≠ "" →
        SaveUploadedFile settings formFile filepathJoin ginSave field dst =
          { saves := [(file, d0)], err := ginSave file d0 }) ∧
      ((dst = [] ∨ dst.head? = some "") → settings.uploads ≠ "" →
        SaveUploadedFile settings formFile filepathJoin ginSave field dst =
          { saves := [(file, filepathJoin settings.uploads file.Filename)],
            err := ginSave file (filepathJoin settings.uploads file.Filename) }) ∧
      ((dst = [] ∨ dst.head? = some "") → settings.uploads = "" →
        SaveUploadedFile settings formFile filepathJoin ginSave field dst =
          { saves := [],
            err := some "no upload destination provided and APP_SETTINGS.uploads not set" })) := by
  refine ⟨fun err h => ?_, fun file h => ⟨fun d0 rest hd hne => ?_, fun hd hu => ?_, fun hd hu => ?_⟩⟩
  · simp [SaveUploadedFile, h]
  · simp [SaveUploadedFile, h, hd, hne]
  · rcases hd with hd | hd
    · simp [SaveUploadedFile, h, hd, hu]
    · cases dst with
      | nil => simp at hd
      | cons d rest =>
        simp only [List.head?_cons, Option.some.injEq] at hd
        simp [SaveUploadedFile, h, hd, hu]
  · rcases hd with hd | hd
    · simp [SaveUploadedFile, h, hd, hu]
    · cases dst with
      | nil => simp at hd
      | cons d rest =>
        simp only [List.head?_cons, Option.some.injEq] at hd
        simp [SaveUploadedFile, h, hd, hu]

/-- C2 at a concrete request: with the shipped settings a custom destination wins over
the upload folder, and without one the file goes under the upload folder. -/
theorem SaveUploadedFile_destination_witness :
    SaveUploadedFile APP_SETTINGS (fun _ => .ok ⟨"a.png", 3⟩) (fun d f => d ++ f)
        (fun _ _ => none) "avatar" ["/tmp/x.png", "ignored"] =
      { saves := [(⟨"a.png", 3⟩, "/tmp/x.png")], err := none } ∧
    SaveUploadedFile APP_SETTINGS (fun _ => .ok ⟨"a.png", 3⟩) (fun d f => d ++ f)
        (fun _ _ => none) "avatar" [""] =
      { saves := [(⟨"a.png", 3⟩, "/uploads/a.png")], err := none } :=
  ⟨((SaveUploadedFile_destination APP_SETTINGS (fun _ => .ok ⟨"a.png", 3⟩) (fun d f => d ++ f)
      (fun _ _ => none) "avatar" ["/tmp/x.png", "ignored"]).2 ⟨"a.png", 3⟩ rfl).1
      "/tmp/x.png" ["ignored"] rfl (by decide),
   ((SaveUploadedFile_destination APP_SETTINGS (fun _ => .ok ⟨"a.png", 3⟩) (fun d f => d ++ f)
      (fun _ _ => none) "avatar" [""]).2 ⟨"a.png", 3⟩ rfl).2.1 (Or.inr rfl) (by decide)⟩

/-- C3, as amended: whenever the router starts the handler that `UseOn(path, m)`
registers, that handler calls `m` (once, first thing, with a `Request` whose `Route`
is `path`) if and only if the matched full path of the request equals `path`, and then
calls `Next` itself unless `m` panicked; for another route it only calls `Next`. The
router starts that handler exactly once when no handler ahead of it in the chain
aborts before calling `Next` and no handler that is started panics. -/
theorem UseOn_only_matching_route (path : String) (m : Middleware) (g : GinContext)
    (pre post : List (List Action)) (abortIndex : Int) :
    (g.fullPath = path →
      UseOn path m g =
        Action.call (buildRequest g path) :: thenDo (m (buildRequest g path)) [Action.Next]) ∧
    (g.fullPath = path → noPanic (m (buildRequest g path)) = true →
      UseOn path m g =
        Action.call (buildRequest g path) :: (m (buildRequest g path) ++ [Action.Next])) ∧
    (g.fullPath ≠ path → UseOn path m g = [Action.Next]) ∧
    (buildRequest g path).Route = path ∧
    (Action.call (buildRequest g path) ∈ UseOn path m g ↔ g.fullPath = path) ∧
    (((pre ++ UseOn path m g :: post).length : Int) ≤ abortIndex →
      calm (pre ++ UseOn path m g :: post) = true →
      (∀ h ∈ pre, abortsFirst h = false) →
      ∃ N c', (∀ fuel, N ≤ fuel →
          serve (pre ++ UseOn path m g :: post) abortIndex fuel = some c') ∧
        c'.runs pre.length = 1) := by
  have hmatch : g.fullPath = path →
      UseOn path m g =
        Action.call (buildRequest g path) ::
          thenDo (m (buildRequest g path)) [Action.Next] := by
    intro h
    simp [UseOn, h, thenDo, Action.isPanic]
  have hother : g.fullPath ≠ path → UseOn path m g = [Action.Next] := by
    intro h
    simp [UseOn, h, thenDo]
  refine ⟨hmatch, fun h hnp => ?_, hother, rfl, ⟨fun hmem => ?_, fun h => ?_⟩,
    fun hlen hcalm hpre => ?_⟩
  · rw [hmatch h, thenDo_of_noPanic _ _ hnp]
  · by_contra hne
    rw [hother hne] at hmem
    simp at hmem
  · rw [hmatch h]
    exact List.mem_cons_self _ _
  · obtain ⟨N, c', hserve, hruns⟩ := serve_run _ abortIndex hlen hcalm
    refine ⟨N, c', hserve, ?_⟩
    rw [hruns, reach_append pre _ hpre, if_pos]
    have := reach_pos (UseOn path m g) post
    omega

/-- C3 as amended, at concrete requests: the logger registered on `/admin` is called
for `/admin` and not for `/`, and behind a handler that calls `Next` and then aborts
the wrapper is still started exactly once. -/
theorem UseOn_only_matching_route_witness :
    UseOn "/admin" LoggerMiddleware ⟨"/admin", [], ⟨[]⟩, "GET", "/admin", ⟨[]⟩⟩ =
      [Action.call ⟨⟨"/admin", [], ⟨[]⟩, "GET", "/admin", ⟨[]⟩⟩, "/admin", ⟨[]⟩, ⟨[]⟩⟩,
        Action.logPrintf "[GET] /admin", Action.Next, Action.Next] ∧
    UseOn "/admin" LoggerMiddleware ⟨"/", [], ⟨[]⟩, "GET", "/", ⟨[]⟩⟩ = [Action.Next] ∧
    (∃ N c', (∀ fuel, N ≤ fuel →
        serve ([[Action.Next, Action.AbortWithStatus 500]] ++
          UseOn "/admin" LoggerMiddleware ⟨"/admin", [], ⟨[]⟩, "GET", "/admin", ⟨[]⟩⟩ ::
          [[Action.logPrintf "panel"]]) 63 fuel = some c') ∧
        c'.runs 1 = 1) :=
  ⟨(UseOn_only_matching_route "/admin" LoggerMiddleware
      ⟨"/admin", [], ⟨[]⟩, "GET", "/admin", ⟨[]⟩⟩ [] [] 63).2.1 rfl (by decide),
   (UseOn_only_matching_route "/admin" LoggerMiddleware
      ⟨"/", [], ⟨[]⟩, "GET", "/", ⟨[]⟩⟩ [] [] 63).2.2.1 (by decide),
   (UseOn_only_matching_route "/admin" LoggerMiddleware
      ⟨"/admin", [], ⟨[]⟩, "GET", "/admin", ⟨[]⟩⟩
      [[Action.Next, Action.AbortWithStatus 500]] [[Action.logPrintf "panel"]] 63).2.2.2.2.2
      (by decide) (by decide) (by decide)⟩

/-- C3 as stated fails. For a request whose matched full path is `/me`, the logger
registered by `UseOn("/me", ...)` behind a JWT middleware that rejects the request is
never called: its wrapper at position 1 is not started and its log line is not
written. And when `m` panics the wrapper does not call `Next`. -/
theorem UseOn_counterexample :
    ((⟨"/me", [], ⟨[]⟩, "GET", "/me", ⟨[]⟩⟩ : GinContext).fullPath = "/me" ∧
      ∃ c, (∀ fuel, 12 ≤ fuel →
          serve [Use (JWTMiddleware (fun _ _ => ⟨none, ⟨[]⟩, some "token is malformed"⟩)
                JWT_SECRET) ⟨"/me", [], ⟨[]⟩, "GET", "/me", ⟨[]⟩⟩,
            UseOn "/me" LoggerMiddleware ⟨"/me", [], ⟨[]⟩, "GET", "/me", ⟨[]⟩⟩,
            [Action.logPrintf "profile"]] 63 fuel = some c) ∧
        c.runs 1 = 0 ∧ Action.logPrintf "[GET] /me" ∉ c.effects) ∧
    Action.Next ∉
      UseOn "/me" (fun _ => [Action.nilDeref]) ⟨"/me", [], ⟨[]⟩, "GET", "/me", ⟨[]⟩⟩ :=
  ⟨⟨rfl, _, fun fuel hf => exec_mono_le _ _ 12 fuel hf _ _ _ rfl, by decide, by decide⟩,
   by decide⟩

/-- C4: `Run` listens on `APP_SETTINGS.address` when that string is non-empty and on
`":8000"` when it is empty; with the shipped default settings the address is `":8000"`. -/
theorem Run_listen_address (settings : Settings) :
    (settings.address ≠ "" → Run settings = settings.address) ∧
    (settings.address = "" → Run settings = ":8000") ∧
    Run APP_SETTINGS = ":8000" := by
  refine ⟨fun h => ?_, fun h => ?_, by decide⟩
  · simp [Run, h]
  · simp [Run, h]

/-- C4 at concrete settings: an explicit address is used as it is, an empty one gives `":8000"`. -/
theorem Run_listen_address_witness :
    Run { APP_SETTINGS with address := "127.0.0.1:9090" } = "127.0.0.1:9090" ∧
    Run { APP_SETTINGS with address := "" } = ":8000" :=
  ⟨(Run_listen_address { APP_SETTINGS with address := "127.0.0.1:9090" }).1 (by decide),
   (Run_listen_address { APP_SETTINGS with address := "" }).2.1 rfl⟩

/-- C5: `InitDB` calls `gorm.Open` if and only if `db_driver` is exactly `"sqlite"`,
`"mysql"` or `"postgres"`, then once, with the dialect of that name and
`APP_SETTINGS.database` unchanged; any other driver string (a differently cased one
included) is fatal with `"unsupported db driver:"` and opens nothing; an error of
`gorm.Open` is fatal too; and the shipped settings open sqlite on `"app.db"`. -/
theorem InitDB_driver_dispatch {δ : Type} (settings : Settings)
    (gormOpen : Dialect → String → Option δ × Option String) :
    ((InitDB settings gormOpen).opens ≠ [] ↔
      (settings.db_driver = "sqlite" ∨ settings.db_driver = "mysql" ∨
        settings.db_driver = "postgres")) ∧
    (∀ d : Dialect, settings.db_driver = d.name →
      (InitDB settings gormOpen).opens = [(d, settings.database)] ∧
      (InitDB settings gormOpen).DB = (gormOpen d settings.database).1 ∧
      (InitDB settings gormOpen).fatal =
        (gormOpen d settings.database).2.map (fun err => "failed to connect database:" ++ err)) ∧
    ((∀ d : Dialect, settings.db_driver ≠ d.name) →
      (InitDB settings gormOpen).opens = [] ∧
      (InitDB settings gormOpen).fatal =
        some ("unsupported db driver:" ++ settings.db_driver)) ∧
    (InitDB { settings with db_driver := "SQLite" } gormOpen).opens = [] ∧
    (InitDB APP_SETTINGS gormOpen).opens = [(Dialect.sqlite, "app.db")] := by
  have key : ∀ d : Dialect, settings.db_driver = d.name →
      (InitDB settings gormOpen).opens = [(d, settings.database)] ∧
      (InitDB settings gormOpen).DB = (gormOpen d settings.database).1 ∧
      (InitDB settings gormOpen).fatal =
        (gormOpen d settings.database).2.map
          (fun err => "failed to connect database:" ++ err) := by
    intro d hd
    cases d <;> simp only [Dialect.name] at hd <;>
      simp [InitDB, hd, InitDB.finish] <;>
      (split <;> simp_all)
  have none_case : (∀ d : Dialect, settings.db_driver ≠ d.name) →
      (InitDB settings gormOpen).opens = [] ∧
      (InitDB settings gormOpen).fatal =
        some ("unsupported db driver:" ++ settings.db_driver) := by
    intro h
    have h1 := h .sqlite
    have h2 := h .mysql
    have h3 := h .postgres
    simp only [Dialect.name] at h1 h2 h3
    simp [InitDB, h1, h2, h3]
  refine ⟨⟨fun h => ?_, fun h => ?_⟩, key, none_case, ?_, ?_⟩
  · by_contra hne
    push_neg at hne
    have := none_case (fun d => by cases d <;> simp [Dialect.name, hne.1, hne.2.1, hne.2.2])
    exact h this.1
  · rcases h with h | h | h
    · rw [(key .sqlite h).1]; simp
    · rw [(key .mysql h).1]; simp
    · rw [(key .postgres h).1]; simp
  · simp [InitDB]
  · simp [InitDB, APP_SETTINGS, InitDB.finish]
    split <;> rfl

/-- C5 at concrete settings: `"mysql"` with a failing `gorm.Open` makes one open call
and is fatal; `"oracle"` opens nothing and is fatal. -/
theorem InitDB_driver_dispatch_witness :
    (InitDB { APP_SETTINGS with db_driver := "mysql", database := "u:p@/app" }
        (fun _ _ => ((none : Option Unit), some "refused"))).opens
      = [(Dialect.mysql, "u:p@/app")] ∧
    (InitDB { APP_SETTINGS with db_driver := "mysql", database := "u:p@/app" }
        (fun _ _ => ((none : Option Unit), some "refused"))).fatal
      = some "failed to connect database:refused" ∧
    (InitDB { APP_SETTINGS with db_driver := "oracle" }
        (fun _ _ => (some (), none))).opens = [] :=
  ⟨((InitDB_driver_dispatch { APP_SETTINGS with db_driver := "mysql", database := "u:p@/app" }
      (fun _ _ => ((none : Option Unit), some "refused"))).2.1 Dialect.mysql rfl).1,
   ((InitDB_driver_dispatch { APP_SETTINGS with db_driver := "mysql", database := "u:p@/app" }
      (fun _ _ => ((none : Option Unit), some "refused"))).2.1 Dialect.mysql rfl).2.2,
   ((InitDB_driver_dispatch { APP_SETTINGS with db_driver := "oracle" }
      (fun _ _ => (some (), none))).2.2.1 (fun d => by cases d <;> decide)).1⟩

/-- C6, as amended: with the router's handler chain run as gin runs it (`Next`
advances the index and runs the remaining handlers in order, `Abort` moves the index
past the end), for a middleware `m` registered through `Use`. Whenever no handler
that is started panics, the request is served to the end and the router starts
exactly the handlers up to and including the first that aborts before calling
`Next`, each of them once. So every handler after the wrapper is started exactly
once when `m` does not abort before calling `Next` and no other handler that has a
handler after it aborts before its own call of `Next`, however often `m` itself calls
`Next` besides the unconditional `Next` of the wrapper; and no handler after the
wrapper is started at all when `m` aborts before it calls `Next`, although the
wrapper still calls `Next` after `m` returns. -/
theorem Use_chain_runs (m : Middleware) (g : GinContext) (pre post : List (List Action))
    (abortIndex : Int)
    (hlen : ((pre ++ Use m g :: post).length : Int) ≤ abortIndex) :
    (calm (pre ++ Use m g :: post) = true →
      ∃ N c', (∀ fuel, N ≤ fuel → serve (pre ++ Use m g :: post) abortIndex fuel = some c') ∧
        ∀ j, c'.runs j = if j < reach (pre ++ Use m g :: post) then 1 else 0) ∧
    (calm (pre ++ Use m g :: post) = true →
      abortsFirst (m (buildRequest g g.fullPath)) = false →
      (post ≠ [] → ∀ h ∈ pre, abortsFirst h = false) →
      (∀ h ∈ post.dropLast, abortsFirst h = false) →
      ∃ N c', (∀ fuel, N ≤ fuel → serve (pre ++ Use m g :: post) abortIndex fuel = some c') ∧
        (∀ j, pre.length < j → j < (pre ++ Use m g :: post).length → c'.runs j = 1) ∧
        ((∀ h ∈ pre, abortsFirst h = false) →
          ∀ j, j < (pre ++ Use m g :: post).length → c'.runs j = 1)) ∧
    (calm (pre ++ Use m g :: post) = true →
      abortsFirst (m (buildRequest g g.fullPath)) = true →
      ∃ N c', (∀ fuel, N ≤ fuel → serve (pre ++ Use m g :: post) abortIndex fuel = some c') ∧
        ∀ j, pre.length < j → c'.runs j = 0) ∧
    ((∀ h ∈ pre, noPanic h = true) → abortsFirst (m (buildRequest g g.fullPath)) = true →
      noPanic (m (buildRequest g g.fullPath)) = true →
      ∃ N c', (∀ fuel, N ≤ fuel → serve (pre ++ Use m g :: post) abortIndex fuel = some c') ∧
        ∀ j, pre.length < j → c'.runs j = 0) := by
  have hsecond : calm (pre ++ Use m g :: post) = true →
      abortsFirst (m (buildRequest g g.fullPath)) = true →
      ∃ N c', (∀ fuel, N ≤ fuel → serve (pre ++ Use m g :: post) abortIndex fuel = some c') ∧
        ∀ j, pre.length < j → c'.runs j = 0 := by
    intro hcalm haf
    have hreach := reach_append_abort_le pre (Use m g) post (Use_abortsFirst m g haf)
    obtain ⟨N, c', hserve, hruns⟩ := serve_run _ abortIndex hlen hcalm
    refine ⟨N, c', hserve, fun j hj => ?_⟩
    rw [hruns, if_neg (by omega)]
  refine ⟨fun hcalm => serve_run _ abortIndex hlen hcalm, ?_, hsecond, ?_⟩
  · intro hcalm haf hpre' hpost'
    have hfull : (∀ h ∈ pre, abortsFirst h = false) →
        reach (pre ++ Use m g :: post) = (pre ++ Use m g :: post).length := by
      intro hp
      rw [reach_append pre _ hp, reach_eq_length (Use m g :: post), List.length_append]
      intro b hb
      cases post with
      | nil => simp at hb
      | cons p1 ps =>
        rw [List.dropLast_cons₂] at hb
        rcases List.mem_cons.mp hb with hb | hb
        · have hcU := calm_of_append pre _ hp hcalm
          have hnpU : noPanic (Use m g) = true := by
            simp only [calm, Bool.and_eq_true] at hcU
            exact hcU.1
          rw [hb, (Use_flags m g (noPanic_of_Use m g hnpU)).2]
          exact haf
        · exact hpost' b hb
    obtain ⟨N, c', hserve, hruns⟩ := serve_run _ abortIndex hlen hcalm
    refine ⟨N, c', hserve, fun j hj hjl => ?_, fun hp j hjl => ?_⟩
    · have hne : post ≠ [] := by
        intro h0
        rw [h0] at hjl
        simp only [List.length_append, List.length_cons, List.length_nil] at hjl
        omega
      rw [hruns, hfull (hpre' hne), if_pos hjl]
    · rw [hruns, hfull hp, if_pos hjl]
  · intro hpre haf hm
    exact hsecond
      (calm_append_abort pre (Use m g) post hpre (Use_flags m g hm).1
        (Use_abortsFirst m g haf)) haf

/-- C6 as amended, on concrete chains behind gin's limit of 63: behind the JWT
middleware and a request without a token the two later handlers are never started;
behind the logger, which calls `Next` itself, each handler is started exactly once,
also when the handler before the logger aborts after its `Next` and the last handler
aborts. -/
theorem Use_chain_runs_witness :
    (∃ N c', (∀ fuel, N ≤ fuel →
        serve ([[Action.Next, Action.logPrintf "done"]] ++
          Use (JWTMiddleware (fun _ _ => ⟨none, ⟨[]⟩, some "token is malformed"⟩) JWT_SECRET)
            ⟨"/me", [], ⟨[]⟩, "GET", "/me", ⟨[]⟩⟩ ::
          [[Action.logPrintf "profile"], [Action.logPrintf "audit"]]) 63 fuel = some c') ∧
        ∀ j, 1 < j → c'.runs j = 0) ∧
    (∃ N c', (∀ fuel, N ≤ fuel →
        serve ([[Action.Next, Action.AbortWithStatus 500]] ++
          Use LoggerMiddleware ⟨"/me", [], ⟨[]⟩, "GET", "/me", ⟨[]⟩⟩ ::
          [[Action.logPrintf "profile"], [Action.AbortWithStatus 404]]) 63 fuel = some c') ∧
        (∀ j, 1 < j → j < 4 → c'.runs j = 1) ∧
        ((∀ h ∈ [[Action.Next, Action.AbortWithStatus 500]], abortsFirst h = false) →
          ∀ j, j < 4 → c'.runs j = 1)) :=
  ⟨(Use_chain_runs
      (JWTMiddleware (fun _ _ => ⟨none, ⟨[]⟩, some "token is malformed"⟩) JWT_SECRET)
      ⟨"/me", [], ⟨[]⟩, "GET", "/me", ⟨[]⟩⟩ [[Action.Next, Action.logPrintf "done"]]
      [[Action.logPrintf "profile"], [Action.logPrintf "audit"]] 63 (by decide)).2.2.2
      (by decide) (by decide) (by decide),
   (Use_chain_runs LoggerMiddleware ⟨"/me", [], ⟨[]⟩, "GET", "/me", ⟨[]⟩⟩
      [[Action.Next, Action.AbortWithStatus 500]]
      [[Action.logPrintf "profile"], [Action.AbortWithStatus 404]] 63 (by decide)).2.1
      (by decide) (by decide) (by decide) (by decide)⟩

/-- C6 as stated fails. Behind `Use(LoggerMiddleware())`, which does not abort, the
route handler at position 2 is never started, because the JWT middleware registered
after the logger rejects the request. And behind a middleware that calls `Next` and
then aborts, the route handler at position 1 is started once, not zero times. -/
theorem Use_chain_counterexample :
    ((LoggerMiddleware
          (buildRequest ⟨"/me", [], ⟨[]⟩, "GET", "/me", ⟨[]⟩⟩ "/me")).any Action.isAbort = false ∧
      ∃ c, (∀ fuel, 12 ≤ fuel →
          serve [Use LoggerMiddleware ⟨"/me", [], ⟨[]⟩, "GET", "/me", ⟨[]⟩⟩,
            Use (JWTMiddleware (fun _ _ => ⟨none, ⟨[]⟩, some "token is malformed"⟩) JWT_SECRET)
              ⟨"/me", [], ⟨[]⟩, "GET", "/me", ⟨[]⟩⟩,
            [Action.logPrintf "profile"]] 63 fuel = some c) ∧
        c.runs 2 = 0) ∧
    (([Action.Next, Action.AbortWithStatus 500] : List Action).any Action.isAbort = true ∧
      ∃ c, (∀ fuel, 12 ≤ fuel →
          serve [Use (fun _ => [Action.Next, Action.AbortWithStatus 500])
              ⟨"/me", [], ⟨[]⟩, "GET", "/me", ⟨[]⟩⟩,
            [Action.logPrintf "profile"]] 63 fuel = some c) ∧
        c.runs 1 = 1) :=
  ⟨⟨by decide, _, fun fuel hf => exec_mono_le _ _ 12 fuel hf _ _ _ rfl, by decide⟩,
   ⟨by decide, _, fun fuel hf => exec_mono_le _ _ 12 fuel hf _ _ _ rfl, by decide⟩⟩

/-- C7: `buildRequest(c, route)` returns a `Request` whose `Route` is `route`, whose
`Query` map holds exactly the keys of the parsed URL query with a non-empty value
list, each mapped to the first value of its list, and whose `Params` map holds exactly
the keys of `c.Params`, each mapped to the value of the last path parameter with that
key. The parsed query is a Go map, so its keys are pairwise distinct. -/
theorem buildRequest_route_query_params (c : GinContext) (route : String)
    (hq : c.urlQuery.WF) :
    (buildRequest c route).Route = route ∧
    (∀ k, (buildRequest c route).Query.get k = (c.urlQuery.get k).bind List.head?) ∧
    (∀ k, k ∈ (buildRequest c route).Query.keys ↔
      ∃ v vs, c.urlQuery.get k = some (v :: vs)) ∧
    (∀ k, (buildRequest c route).Params.get k = lastParamValue c.Params k) ∧
    (∀ k, k ∈ (buildRequest c route).Params.keys ↔ ∃ p ∈ c.Params, p.Key = k) ∧
    (buildRequest c route).Query.WF ∧ (buildRequest c route).Params.WF := by
  have hQ : ∀ k, (buildRequest c route).Query.get k = (c.urlQuery.get k).bind List.head? := by
    intro k
    simp only [buildRequest]
    rw [foldl_query_get _ _ k hq]
    unfold GoMap.get
    cases hl : c.urlQuery.entries.lookup k with
    | none => simp [GoMap.empty]
    | some vs =>
      cases vs with
      | nil => simp [GoMap.empty]
      | cons v rest => simp
  have hP : ∀ k, (buildRequest c route).Params.get k = lastParamValue c.Params k := by
    intro k
    simp only [buildRequest]
    rw [foldl_params_get]
    cases lastParamValue c.Params k with
    | none => simp [GoMap.get, GoMap.empty]
    | some v => rfl
  refine ⟨rfl, hQ, fun k => ?_, hP, fun k => ?_, ?_, ?_⟩
  · rw [GoMap.mem_keys_iff, hQ]
    cases hl : c.urlQuery.get k with
    | none => simp
    | some vs =>
      cases vs with
      | nil => simp
      | cons v rest => simp
  · rw [GoMap.mem_keys_iff, hP]
    exact lastParamValue_isSome_iff c.Params k
  · exact foldl_query_WF _ _ GoMap.WF_empty
  · exact foldl_params_WF _ _ GoMap.WF_empty

/-- C7 at a concrete request: `/u/:id/:id` matched with 1 and 2, query `?a=1&a=2&b=`
with an entry `c` whose value list is empty. -/
theorem buildRequest_route_query_params_witness :
    (buildRequest
        ⟨"/u/:id/:id", [⟨"id", "1"⟩, ⟨"id", "2"⟩],
          ⟨[("a", ["1", "2"]), ("b", [""]), ("c", [])]⟩, "GET", "/u/1/2", ⟨[]⟩⟩
        "/u/:id/:id").Query.get "a" = some "1" ∧
    (buildRequest
        ⟨"/u/:id/:id", [⟨"id", "1"⟩, ⟨"id", "2"⟩],
          ⟨[("a", ["1", "2"]), ("b", [""]), ("c", [])]⟩, "GET", "/u/1/2", ⟨[]⟩⟩
        "/u/:id/:id").Query.get "c" = none ∧
    (buildRequest
        ⟨"/u/:id/:id", [⟨"id", "1"⟩, ⟨"id", "2"⟩],
          ⟨[("a", ["1", "2"]), ("b", [""]), ("c", [])]⟩, "GET", "/u/1/2", ⟨[]⟩⟩
        "/u/:id/:id").Params.get "id" = some "2" :=
  have h := buildRequest_route_query_params
    ⟨"/u/:id/:id", [⟨"id", "1"⟩, ⟨"id", "2"⟩],
      ⟨[("a", ["1", "2"]), ("b", [""]), ("c", [])]⟩, "GET", "/u/1/2", ⟨[]⟩⟩
    "/u/:id/:id" (by decide)
  ⟨(h.2.1 "a").trans (by decide), (h.2.1 "c").trans (by decide),
   (h.2.2.2.1 "id").trans (by decide)⟩

/-- C8: over an explicit file-system state, `createFolders` attempts to create
(`MkdirAll`, mode 0755) exactly those of the configured folders templates, layouts,
views, static and uploads, in that order, whose name is non-empty and for which the
existence check reports that the path does not exist. A folder whose name is empty or
whose check does not report it missing is never passed to `MkdirAll` and its turn
leaves the state as it is, and a failed creation does not stop the remaining folders. -/
theorem createFolders_attempts {σ : Type} (os : OS σ) (settings : Settings) (fs : σ) :
    ((createFolders os settings fs).mkdirs, (createFolders os settings fs).fs) =
      specAttempts os (configuredFolders settings) fs ∧
    (((createFolders os settings fs).mkdirs.map Prod.fst).Sublist (configuredFolders settings)) ∧
    (∀ p ∈ (createFolders os settings fs).mkdirs,
      p.1 ∈ configuredFolders settings ∧ p.1 ≠ "" ∧ p.2 = 0o755 ∧
        ∃ fs', IsNotExist (os.Stat fs' p.1) = true) ∧
    (∀ f, (f = "" ∨ ∀ fs', IsNotExist (os.Stat fs' f) = false) →
      f ∉ (createFolders os settings fs).mkdirs.map Prod.fst) ∧
    ((∀ f ∈ configuredFolders settings, f = "" ∨ IsNotExist (os.Stat fs f) = false) →
      (createFolders os settings fs).mkdirs = [] ∧ (createFolders os settings fs).fs = fs) ∧
    ((∀ f ∈ configuredFolders settings, f ≠ "" ∧ ∀ fs', IsNotExist (os.Stat fs' f) = true) →
      (createFolders os settings fs).mkdirs =
        (configuredFolders settings).map (fun f => (f, 0o755))) := by
  have heq := createFolders_eq_spec os settings fs
  have h1 : (createFolders os settings fs).mkdirs =
      (specAttempts os (configuredFolders settings) fs).1 := congrArg Prod.fst heq
  have h2 : (createFolders os settings fs).fs =
      (specAttempts os (configuredFolders settings) fs).2 := congrArg Prod.snd heq
  refine ⟨heq, ?_, ?_, ?_, ?_, ?_⟩
  · rw [h1]
    exact specAttempts_sublist os _ fs
  · intro p hp
    rw [h1] at hp
    exact specAttempts_mem os _ fs p hp
  · intro f hf hmem
    rw [h1] at hmem
    obtain ⟨p, hp, hpf⟩ := List.mem_map.mp hmem
    obtain ⟨_, hne, _, fs', hfs'⟩ := specAttempts_mem os _ fs p hp
    rw [hpf] at hne hfs'
    rcases hf with hf | hf
    · exact hne hf
    · rw [hf fs'] at hfs'
      cases hfs'
  · intro h
    rw [h1, h2, specAttempts_nothing os _ fs h]
    exact ⟨rfl, rfl⟩
  · intro h
    rw [h1]
    exact specAttempts_all os _ fs h

/-- C8 on a concrete file system (the list of existing paths, where every creation
fails): with the shipped settings and only `./static/` present, the other four folders
are attempted in order; with all five present nothing is attempted. -/
theorem createFolders_attempts_witness :
    (createFolders
        (⟨fun fs path => if path ∈ fs then none else some StatErr.notExist,
          fun fs _ _ => (fs, some "permission denied")⟩ : OS (List String))
        APP_SETTINGS ["./static/"]).mkdirs =
      [("./templates/", 0o755), ("./templates/layouts/", 0o755),
        ("./templates/views/", 0o755), ("/uploads/", 0o755)] ∧
    (createFolders
        (⟨fun fs path => if path ∈ fs then none else some StatErr.notExist,
          fun fs _ _ => (fs, some "permission denied")⟩ : OS (List String))
        APP_SETTINGS
        ["./templates/", "./templates/layouts/", "./templates/views/", "./static/",
          "/uploads/"]).mkdirs = [] :=
  ⟨(congrArg Prod.fst (createFolders_attempts
      (⟨fun fs path => if path ∈ fs then none else some StatErr.notExist,
        fun fs _ _ => (fs, some "permission denied")⟩ : OS (List String))
      APP_SETTINGS ["./static/"]).1).trans (by decide),
   ((createFolders_attempts
      (⟨fun fs path => if path ∈ fs then none else some StatErr.notExist,
        fun fs _ _ => (fs, some "permission denied")⟩ : OS (List String))
      APP_SETTINGS
      ["./templates/", "./templates/layouts/", "./templates/views/", "./static/",
        "/uploads/"]).2.2.2.2.1 (by decide)).1⟩

end Spark
